import Mathlib

/-!
Verification development for the split-APK merge and repack pipeline
(`src/backend/src/apk/apk.service.ts`).

The TypeScript service is shallowly embedded here:

* JavaScript string primitives (`trim`, `startsWith`, `endsWith`, `indexOf`,
  lexicographic comparison, global literal replacement) are modelled as
  executable functions over `String` / `List Char`, because the service
  manipulates raw text.
* The on-disk content trees handled by `mergeDirContents` are modelled by the
  inductive type `Node` (a file with contents, or a directory with a named
  entry list).  Filesystem errors (ENOTDIR-style failures) surface as
  `Except.error`, mirroring the promise rejections of the `fs` API.
* The `apktool.yml` merge (`mergeApktoolYml`) and the two block scanners
  (`getDoNotCompressLines`, `getDoNotCompressRange`) are modelled line by
  line; a file is its list of lines, exactly as the service obtains it via
  `split('\n')`.
* The orchestrating `mergeApks` with its `try`/`catch`/`finally` shape is
  modelled by `mergeApksModel` over an environment of external-tool and
  filesystem outcomes; the `finally` block's `rm` may itself fail, in which
  case (as in JavaScript) its rejection replaces the pending result.
-/

deriving instance DecidableEq for Except

/-! ## JavaScript string primitives -/

/-- Character comparison by code point, mirroring how JavaScript compares
string elements in `<` and in the default `Array.prototype.sort`. -/
def charLe (a b : Char) : Bool := a.toNat ≤ b.toNat

/-- Lexicographic comparison of character lists by code point, mirroring the
JavaScript string `<=` relation used (via the default comparator) by
`Array.sort()`. -/
def lexLeList : List Char → List Char → Bool
  | [], _ => true
  | _ :: _, [] => false
  | a :: as, b :: bs => if a.toNat = b.toNat then lexLeList as bs else a.toNat ≤ b.toNat

/-- Lexicographic comparison of strings (JavaScript default sort order). -/
def lexLe (a b : String) : Bool := lexLeList a.data b.data

/-- Model of `String.prototype.startsWith` for string arguments. -/
def jsStartsWith (s pat : String) : Bool := pat.data.isPrefixOf s.data

/-- Model of `String.prototype.endsWith` for string arguments. -/
def jsEndsWith (s pat : String) : Bool := pat.data.isSuffixOf s.data

/-- Model of `String.prototype.trim`: strip leading and trailing
whitespace. -/
def jsTrim (s : String) : String :=
  String.mk (((s.data.dropWhile Char.isWhitespace).reverse.dropWhile
    Char.isWhitespace).reverse)

/-- Model of JavaScript `Array.prototype.indexOf` (starting the search at
index `i`): the index of the first occurrence, or `-1` when absent. -/
def jsIndexOfFrom (a : String) : List String → Nat → Int
  | [], _ => -1
  | x :: rest, i => if x = a then (i : Int) else jsIndexOfFrom a rest (i + 1)

/-- Model of JavaScript `Array.prototype.indexOf`. -/
def jsIndexOf (a : String) (l : List String) : Int := jsIndexOfFrom a l 0

/-! ## Content trees (`mergeDirContents`) -/

/-- A filesystem node: either a leaf file with textual contents, or a
directory with a list of named children (as produced by `fs.readdir` with
`withFileTypes`). -/
inductive Node where
  | file (content : String)
  | dir (entries : List (String × Node))
deriving Repr

/-- First entry with the given name in a directory listing (the filesystem
lookup performed by `fs.existsSync(path.join(dst, name))`). -/
def lookupEntry (name : String) : List (String × Node) → Option Node
  | [] => none
  | (n, v) :: rest => if n = name then some v else lookupEntry name rest

/-- Replace the first entry with the given name (or append the entry when the
name is absent): the effect of writing at `path.join(dst, name)`. -/
def setEntry (name : String) (v : Node) : List (String × Node) → List (String × Node)
  | [] => [(name, v)]
  | (n, w) :: rest => if n = name then (n, v) :: rest else (n, w) :: setEntry name v rest

mutual

/-- Model of `ApkService.mergeDirContents(src, dst)`.  `dst = none` means no
node exists yet at the destination path (then `mkdir` creates an empty
directory).  Reading the entries of a `src` that is a plain file fails, as
`fs.readdir` would; copying into or creating children under a `dst` that is a
plain file fails with the ENOTDIR rejection `fs` raises. -/
def mergeDirContents (src : Node) (dst : Option Node) : Except String Node :=
  match src with
  | .file _ => .error "ENOTDIR: readdir on a file"
  | .dir es => mergeEntries es (dst.getD (.dir []))

/-- The entry loop of `mergeDirContents`: fold the source entries into the
current destination node.  A directory entry recurses; a file entry is copied
only when nothing exists at the destination name. -/
def mergeEntries (es : List (String × Node)) (d : Node) : Except String Node :=
  match es with
  | [] => .ok d
  | (name, child) :: rest =>
    match child with
    | .dir ces =>
      match d with
      | .file _ => .error "ENOTDIR: mkdir under a file"
      | .dir des =>
        match mergeDirContents (.dir ces) (lookupEntry name des) with
        | .error e => .error e
        | .ok merged => mergeEntries rest (.dir (setEntry name merged des))
    | .file c =>
      match d with
      | .file _ => .error "ENOTDIR: copyFile under a file"
      | .dir des =>
        match lookupEntry name des with
        | none => mergeEntries rest (.dir (setEntry name (.file c) des))
        | some _ => mergeEntries rest d

end

/-- Content of the file reachable from a node along a path of entry names
(`none` when no file is there). -/
def findFile : Node → List String → Option String
  | .file c, [] => some c
  | .dir _, [] => none
  | .file _, _ :: _ => none
  | .dir es, n :: rest =>
    match lookupEntry n es with
    | none => none
    | some child => findFile child rest

/-- Key distinctness of a directory listing. -/
def distinctKeys : List (String × Node) → Bool
  | [] => true
  | (n, _) :: rest => !(rest.any (fun e => e.1 == n)) && distinctKeys rest

mutual

/-- Well-formedness of a tree as produced by a real filesystem: every
directory's entry names are pairwise distinct. -/
def Node.wf : Node → Bool
  | .file _ => true
  | .dir es => distinctKeys es && wfChildren es

/-- Well-formedness of every child in an entry list. -/
def wfChildren : List (String × Node) → Bool
  | [] => true
  | (_, v) :: rest => v.wf && wfChildren rest

end

/-! ## The do-not-compress block scanners and `mergeApktoolYml` -/

/-- Item-line test shared by both scanners: the trimmed line starts with the
list marker. -/
def isItemLine (line : String) : Bool := jsStartsWith (jsTrim line) "- "

/-- Key-line test: the trimmed line starts with the block key token. -/
def isKeyLine (line : String) : Bool := jsStartsWith (jsTrim line) "doNotCompress:"

/-- The loop of `ApkService.getDoNotCompressLines`, with the `inside` flag
made explicit.  Note that the key test is applied on every line (no `!inside`
guard) and that the comment test `line.startsWith('#')` is applied to the
untrimmed line. -/
def getLinesLoop : List String → Bool → List String
  | [], _ => []
  | line :: rest, inside =>
    if isKeyLine line then getLinesLoop rest true
    else if inside then
      if isItemLine line then line :: getLinesLoop rest true
      else if jsTrim line != "" && !(jsStartsWith line "#") then []
      else getLinesLoop rest true
    else getLinesLoop rest false

/-- Model of `ApkService.getDoNotCompressLines`. -/
def getDoNotCompressLines (lines : List String) : List String :=
  getLinesLoop lines false

/-- Result record of `getDoNotCompressRange`; `-1` marks an index that was
never assigned, as in the source. -/
structure DncRange where
  startIndex : Int
  endIndex : Int
  lines : List String
deriving Repr

/-- The loop of `ApkService.getDoNotCompressRange`, with the loop state
(current index, `inside`, `startIndex`, `endIndex`, extracted lines) made
explicit.  Unlike `getLinesLoop` the key test is guarded by `!inside`, and
the comment test is applied to the trimmed line. -/
def getRangeLoop : List String → Nat → Bool → Int → Int → List String → DncRange
  | [], _, _, s, e, acc => ⟨s, e, acc⟩
  | line :: rest, i, inside, s, e, acc =>
    if !inside && isKeyLine line then getRangeLoop rest (i + 1) true s e acc
    else if inside then
      if isItemLine line then
        getRangeLoop rest (i + 1) true (if s = -1 then (i : Int) else s) (i : Int)
          (acc ++ [line])
      else if jsTrim line != "" && !(jsStartsWith (jsTrim line) "#") then ⟨s, e, acc⟩
      else getRangeLoop rest (i + 1) true s e acc
    else getRangeLoop rest (i + 1) false s e acc

/-- Model of `ApkService.getDoNotCompressRange`. -/
def getDoNotCompressRange (lines : List String) : DncRange :=
  getRangeLoop lines 0 false (-1) (-1) []

/-- Insertion of a string into a list at the first position whose element is
not below it. -/
def insertSorted (a : String) : List String → List String
  | [] => [a]
  | b :: bs => if lexLe a b then a :: b :: bs else b :: insertSorted a bs

/-- Model of the default (lexicographic) JavaScript `Array.prototype.sort`
on string arrays: it produces the sorted arrangement of its input, here
computed by insertion. -/
def sortJs : List String → List String
  | [] => []
  | a :: as => insertSorted a (sortJs as)

/-- Deduplication keeping first occurrences: the effect of feeding a list
into a JavaScript `Set` and reading it back with `Array.from`.  `seen` holds
the values already in the set. -/
def dedupSeen (seen : List String) : List String → List String
  | [] => []
  | x :: xs => if seen.contains x then dedupSeen seen xs else x :: dedupSeen (x :: seen) xs

/-- Deduplication of a list by exact match, keeping first occurrences. -/
def dedupFirst (l : List String) : List String := dedupSeen [] l

/-- The union-and-sort step of `mergeApktoolYml`:
`Array.from(new Set([...dstItems, ...srcItems])).sort()`. -/
def sortedUnion (dstItems srcItems : List String) : List String :=
  sortJs (dedupFirst (dstItems ++ srcItems))

/-- Model of `ApkService.mergeApktoolYml`, expressed on the line lists of the
two configuration files (the service obtains them by `split('\n')` and joins
the result back with `'\n'`).  Returns the new line list of the destination
file. -/
def mergeApktoolYml (srcLines dstLines : List String) : List String :=
  let srcDoNotCompress := getDoNotCompressLines srcLines
  if srcDoNotCompress.length = 0 then dstLines
  else
    let r := getDoNotCompressRange dstLines
    let sorted := sortedUnion r.lines srcDoNotCompress
    if r.startIndex ≠ -1 ∧ r.endIndex ≠ -1 then
      dstLines.take r.startIndex.toNat ++ sorted ++ dstLines.drop (r.endIndex.toNat + 1)
    else dstLines

/-! ## Input collection (`prepareApkFiles`) -/

/-- Model of the listing/ordering logic of `ApkService.prepareApkFiles`: keep
the names with the `.apk` extension, sort them, and when `base.apk` sits at a
positive index, splice it out and unshift it to the front.  (The element
spliced out at `indexOf('base.apk')` is `base.apk` itself.) -/
def prepareApkFiles (dirListing : List String) : List String :=
  let files := sortJs (dirListing.filter (fun f => jsEndsWith f ".apk"))
  let baseIndex := jsIndexOf "base.apk" files
  if baseIndex > 0 then "base.apk" :: files.eraseIdx baseIndex.toNat
  else files

/-! ## Manifest sanitization (`updateMainManifestFile`)

The service's four substitutions are global regular expressions.  Their only
regex metacharacter is the unescaped dot `.` (in the second and third
patterns, inside `com.android.vending.splits...`), which matches any
character except a line terminator; `\/` is an escaped literal `/`; every
other character matches literally.  A pattern is therefore a list of atoms,
each either a literal character or the dot wildcard. -/

/-- One atom of a substitution pattern: a literal character, or the regex
dot, which matches any character except a line terminator. -/
inductive PatChar where
  | lit (c : Char)
  | dot
deriving Repr

/-- Does a pattern atom match one character?  The regex dot (without the `s`
flag) matches everything except `\n`, `\r`, U+2028 and U+2029. -/
def patMatches : PatChar → Char → Bool
  | .lit c, d => c = d
  | .dot, d => !(d = '\n' || d = '\r' || d = '\u2028' || d = '\u2029')

/-- Match a pattern against a prefix of the input; on success return the
input that remains after the matched prefix. -/
def matchPrefix : List PatChar → List Char → Option (List Char)
  | [], s => some s
  | _ :: _, [] => none
  | p :: ps, c :: cs => if patMatches p c then matchPrefix ps cs else none

/-- Global left-to-right non-overlapping replacement of a pattern, the
semantics of JavaScript `String.prototype.replace` with a global regular
expression of the shape used by the service.  The `fuel` argument only
bounds the recursion; it never runs out when it starts at the length of `s`,
because the four patterns used by the service are non-empty and a successful
match then consumes at least one character. -/
def replaceRegexAux (pat : List PatChar) (repl : List Char) : Nat → List Char → List Char
  | _, [] => []
  | 0, s => s
  | fuel + 1, c :: rest =>
    match matchPrefix pat (c :: rest) with
    | some remaining => repl ++ replaceRegexAux pat repl fuel remaining
    | none => c :: replaceRegexAux pat repl fuel rest

/-- Replacement of every non-overlapping match of `pat` in `s`. -/
def replaceRegex (pat : List PatChar) (repl s : List Char) : List Char :=
  replaceRegexAux pat repl s.length s

/-- The pattern denoted by the source text of one of the service's regex
literals: an unescaped `.` is the dot wildcard, everything else is literal
(the `\/` escapes of the source are written here as plain `/`). -/
def regexOfString (s : String) : List PatChar :=
  s.data.map (fun c => if c = '.' then PatChar.dot else PatChar.lit c)

/-- String-level wrapper for `replaceRegex`, taking the regex source text. -/
def jsReplaceRegex (s pat repl : String) : String :=
  String.mk (replaceRegex (regexOfString pat) repl.data s.data)

/-- Does the pattern match anywhere inside the list?  Used to state when a
replacement pass is a no-op. -/
def regexOccurs (pat : List PatChar) (s : List Char) : Bool :=
  match s with
  | [] => pat.isEmpty
  | _ :: rest => (matchPrefix pat s).isSome || regexOccurs pat rest

/-- The source texts of the four substitution regexes of
`ApkService.updateMainManifestFile`, in source order (each `.` is the dot
wildcard; the first and fourth patterns contain none). -/
def manifestPatterns : List String :=
  [" android:isSplitRequired=\"true\" ",
   "<meta-data android:name=\"com.android.vending.splits.required\" android:value=\"true\"/>",
   "<meta-data android:name=\"com.android.vending.splits\" android:resource=\"@xml/splits0\"/>",
   "android:value=\"STAMP_TYPE_DISTRIBUTION_APK\""]

/-- Model of the textual transformation of `ApkService.updateMainManifestFile`
on the manifest document: the four global substitutions applied in source
order. -/
def updateManifestData (data : String) : String :=
  let d1 := jsReplaceRegex data " android:isSplitRequired=\"true\" " " "
  let d2 := jsReplaceRegex d1
    "<meta-data android:name=\"com.android.vending.splits.required\" android:value=\"true\"/>" ""
  let d3 := jsReplaceRegex d2
    "<meta-data android:name=\"com.android.vending.splits\" android:resource=\"@xml/splits0\"/>" ""
  jsReplaceRegex d3 "android:value=\"STAMP_TYPE_DISTRIBUTION_APK\""
    "android:value=\"STAMP_TYPE_STANDALONE_APK\""

/-! ## Signature file cleanup (`deleteSignatureRelatedFiles`) -/

/-- The deletion test of `ApkService.deleteSignatureRelatedFiles`. -/
def isSignatureRelated (f : String) : Bool :=
  jsEndsWith f ".RSA" || jsEndsWith f ".SF" || f == "MANIFEST.MF"

/-- Model of `ApkService.deleteSignatureRelatedFiles` on the listing of the
`original/META-INF` directory; `none` means the directory is absent (then the
function does nothing). -/
def deleteSignatureRelatedFiles : Option (List String) → Option (List String)
  | none => none
  | some files => some (files.filter (fun f => !(isSignatureRelated f)))

/-! ## The orchestrating pipeline (`mergeApks`)

`mergeApks` sequences filesystem work and external tools inside
`try ... catch ... finally`.  The outcomes of the external and filesystem
operations form an environment `PipeEnv`; each `Except.error` value carries
the diagnostic text of the corresponding rejection.  The state visible after
the call records whether the workspace directory is gone, whether the
destination path was created or modified, and what META-INF listing the
repack step received (if it was reached). -/

/-- Environment of external outcomes for one `mergeApks` invocation. -/
structure PipeEnv where
  /-- Outcome of `prepareApkFiles` (directory check, listing, copies). -/
  prepFiles : Except String (List String)
  /-- Outcome of `apktool d` (plus the archive unlink) per archive file. -/
  unpackRes : String → Except String Unit
  /-- Outcome of the content merge (`mergeApkContents` over all secondaries),
  returning the merged base tree's `original/META-INF` listing (`none` when
  that directory is absent). -/
  mergeRes : Except String (Option (List String))
  /-- Outcome of the manifest read/rewrite (`updateMainManifestFile`). -/
  manifestRes : Except String Unit
  /-- Outcome of `apktool b`, given the META-INF listing left by the
  signature cleanup. -/
  packRes : Option (List String) → Except String Unit
  /-- Listing of the `dist` output directory after a successful repack. -/
  distFiles : List String
  /-- Outcome of `zipalign` plus the rename over the original. -/
  zipalignRes : Except String Unit
  /-- Outcome of the final `mkdir` and `copyFile` to the destination path. -/
  copyRes : Except String Unit
  /-- Outcome of the `finally` block's recursive `rm` of the workspace. -/
  rmRes : Except String Unit

/-- The unpack loop of `mergeApks` step 2: stop at the first failing archive,
wrapping its diagnostic as the service does. -/
def unpackAll (u : String → Except String Unit) : List String → Except String Unit
  | [] => .ok ()
  | f :: rest =>
    match u f with
    | .error e => .error ("Failed to unpack " ++ f ++ ": " ++ e)
    | .ok _ => unpackAll u rest

/-- Result of the `try` body of `mergeApks`: the returned value or thrown
error, whether the destination was written, and the META-INF listing handed
to the repack step (when reached). -/
structure BodyOut where
  result : Except String String
  outputWritten : Bool
  packInput : Option (Option (List String))

/-- The `try` body of `mergeApks` (steps 1-7 of the source). -/
def runBody (env : PipeEnv) (outputPath : String) : BodyOut :=
  match env.prepFiles with
  | .error e => ⟨.error e, false, none⟩
  | .ok apkFiles =>
    if apkFiles.length < 1 then ⟨.error "No APK files found in input path", false, none⟩
    else
      match unpackAll env.unpackRes apkFiles with
      | .error e => ⟨.error e, false, none⟩
      | .ok _ =>
        match env.mergeRes with
        | .error e => ⟨.error e, false, none⟩
        | .ok metaInf =>
          let cleaned := deleteSignatureRelatedFiles metaInf
          match env.manifestRes with
          | .error e => ⟨.error e, false, none⟩
          | .ok _ =>
            match env.packRes cleaned with
            | .error e => ⟨.error ("Failed to pack APK: " ++ e), false, some cleaned⟩
            | .ok _ =>
              match env.distFiles.head? with
              | none => ⟨.error "Result APK not found in dist", false, some cleaned⟩
              | some _ =>
                match env.zipalignRes with
                | .error e => ⟨.error ("Failed to zipalign: " ++ e), false, some cleaned⟩
                | .ok _ =>
                  match env.copyRes with
                  | .error e => ⟨.error e, false, some cleaned⟩
                  | .ok _ => ⟨.ok outputPath, true, some cleaned⟩

/-- Post-state of a `mergeApks` invocation. -/
structure PipeSt where
  workspaceRemoved : Bool
  outputWritten : Bool
  packInput : Option (Option (List String))

/-- Model of `ApkService.mergeApks`: run the `try` body, then the `finally`
block.  When the `finally` block's `rm` rejects, its error replaces the
pending result (JavaScript `finally` semantics) and the workspace directory
is left behind. -/
def mergeApksModel (env : PipeEnv) (outputPath : String) : Except String String × PipeSt :=
  let b := runBody env outputPath
  match env.rmRes with
  | .ok _ => (b.result, ⟨true, b.outputWritten, b.packInput⟩)
  | .error ce => (.error ce, ⟨false, b.outputWritten, b.packInput⟩)

/-! ## Concrete environments and helper predicates used by the theorems -/

/-- An environment in which every external operation succeeds. -/
def envAllOk : PipeEnv where
  prepFiles := .ok ["base.apk", "split_config.arm64.apk"]
  unpackRes := fun _ => .ok ()
  mergeRes := .ok (some ["CERT.RSA", "CERT.SF", "MANIFEST.MF", "keep.txt"])
  manifestRes := .ok ()
  packRes := fun _ => .ok ()
  distFiles := ["base.apk"]
  zipalignRes := .ok ()
  copyRes := .ok ()
  rmRes := .ok ()

/-- Every stage succeeds but the `finally` block's workspace removal
rejects. -/
def envRmFails : PipeEnv := { envAllOk with rmRes := .error "EBUSY: rm failed" }

/-- The repack tool fails; cleanup succeeds. -/
def envPackFails : PipeEnv :=
  { envAllOk with packRes := fun _ => .error "brut: exit code 1" }

/-- The repack tool fails and the workspace removal also rejects. -/
def envPackRmFail : PipeEnv :=
  { envAllOk with packRes := fun _ => .error "brut: exit code 1",
                  rmRes := .error "EPERM: rm failed" }

/-- Preservation property of `mergeDirContents` for a fixed source node:
every file reachable in the destination before the merge is intact, with the
same content, afterwards. -/
def PreservesFiles (src : Node) : Prop :=
  ∀ (dst r : Node), mergeDirContents src (some dst) = .ok r →
    ∀ (p : List String) (c : String), findFile dst p = some c → findFile r p = some c

/-- Idempotence property of `mergeDirContents` for a fixed source node:
re-merging into an already-merged destination succeeds and changes
nothing. -/
def IdempotentOn (src : Node) : Prop :=
  ∀ (dst : Option Node) (r : Node), mergeDirContents src dst = .ok r →
    mergeDirContents src (some r) = .ok r

/-- The entry (if any) reachable under a name one level below a node. -/
def entryAt (n : String) : Node → Option Node
  | .file _ => none
  | .dir des => lookupEntry n des

/-- A manifest document with two overlapping occurrences of the
split-required attribute pattern: the text is one space, then the attribute
text, then one space, then the attribute text, then one space, so the two
pattern occurrences share their middle space. -/
def manifestOverlap : String :=
  " android:isSplitRequired=\"true\" android:isSplitRequired=\"true\" "

/-- A small manifest on which one sanitizer pass removes every pattern. -/
def manifestClean : String := "<manifest android:isSplitRequired=\"true\" >"

/-! ## Order lemmas for the JavaScript sort comparison -/

theorem lexLeList_cons (x y : Char) (xs ys : List Char) :
    lexLeList (x :: xs) (y :: ys) =
      if x.toNat = y.toNat then lexLeList xs ys else decide (x.toNat ≤ y.toNat) := rfl

theorem lexLeList_total (a : List Char) : ∀ b, lexLeList a b = true ∨ lexLeList b a = true := by
  induction a with
  | nil => intro b; left; simp [lexLeList]
  | cons x xs ih =>
    intro b
    cases b with
    | nil => right; simp [lexLeList]
    | cons y ys =>
      rw [lexLeList_cons, lexLeList_cons]
      by_cases hxy : x.toNat = y.toNat
      · rw [if_pos hxy, if_pos hxy.symm]
        exact ih ys
      · have hyx : ¬ y.toNat = x.toNat := fun h => hxy h.symm
        rw [if_neg hxy, if_neg hyx]
        rcases Nat.le_total x.toNat y.toNat with h | h
        · left; simpa using h
        · right; simpa using h

theorem lexLeList_trans (a : List Char) :
    ∀ b c, lexLeList a b = true → lexLeList b c = true → lexLeList a c = true := by
  induction a with
  | nil => intro b c _ _; simp [lexLeList]
  | cons x xs ih =>
    intro b c hab hbc
    cases b with
    | nil => simp [lexLeList] at hab
    | cons y ys =>
      cases c with
      | nil => simp [lexLeList] at hbc
      | cons z zs =>
        rw [lexLeList_cons] at hab hbc ⊢
        by_cases hxy : x.toNat = y.toNat
        · rw [if_pos hxy] at hab
          by_cases hyz : y.toNat = z.toNat
          · rw [if_pos hyz] at hbc
            rw [if_pos (hxy.trans hyz)]
            exact ih ys zs hab hbc
          · rw [if_neg hyz, decide_eq_true_eq] at hbc
            have hxz : ¬ x.toNat = z.toNat := by omega
            rw [if_neg hxz, decide_eq_true_eq]
            omega
        · rw [if_neg hxy, decide_eq_true_eq] at hab
          by_cases hyz : y.toNat = z.toNat
          · rw [if_pos hyz] at hbc
            have hxz : ¬ x.toNat = z.toNat := by omega
            rw [if_neg hxz, decide_eq_true_eq]
            omega
          · rw [if_neg hyz, decide_eq_true_eq] at hbc
            have hxz : ¬ x.toNat = z.toNat := by omega
            rw [if_neg hxz, decide_eq_true_eq]
            omega

theorem lexLe_total (a b : String) : lexLe a b = true ∨ lexLe b a = true :=
  lexLeList_total a.data b.data

theorem lexLe_trans {a b c : String} (h1 : lexLe a b = true) (h2 : lexLe b c = true) :
    lexLe a c = true :=
  lexLeList_trans a.data b.data c.data h1 h2

/-! ## Lemmas about `insertSorted`, `sortJs`, `dedupSeen` -/

theorem insertSorted_perm (a : String) (l : List String) :
    (insertSorted a l).Perm (a :: l) := by
  induction l with
  | nil => simp [insertSorted]
  | cons b bs ih =>
    by_cases h : lexLe a b = true
    · simp [insertSorted, h]
    · simp only [insertSorted, if_neg h]
      exact (ih.cons b).trans (List.Perm.swap a b bs)

theorem sortJs_perm (l : List String) : (sortJs l).Perm l := by
  induction l with
  | nil => simp [sortJs]
  | cons a as ih =>
    exact ((insertSorted_perm a (sortJs as)).trans (ih.cons a))

theorem mem_insertSorted {a x : String} {l : List String} :
    x ∈ insertSorted a l ↔ x = a ∨ x ∈ l := by
  constructor
  · intro h
    have := (insertSorted_perm a l).mem_iff.mp h
    simpa using this
  · intro h
    apply (insertSorted_perm a l).mem_iff.mpr
    simpa using h

theorem insertSorted_pairwise (a : String) (l : List String)
    (h : List.Pairwise (fun x y => lexLe x y = true) l) :
    List.Pairwise (fun x y => lexLe x y = true) (insertSorted a l) := by
  induction l with
  | nil => simp [insertSorted]
  | cons b bs ih =>
    rcases List.pairwise_cons.mp h with ⟨hb, hbs⟩
    by_cases hab : lexLe a b = true
    · simp only [insertSorted, if_pos hab]
      refine List.pairwise_cons.mpr ⟨?_, h⟩
      intro x hx
      rcases List.mem_cons.mp hx with rfl | hx
      · exact hab
      · exact lexLe_trans hab (hb x hx)
    · simp only [insertSorted, if_neg hab]
      refine List.pairwise_cons.mpr ⟨?_, ih hbs⟩
      intro x hx
      rcases mem_insertSorted.mp hx with rfl | hx
      · rcases lexLe_total x b with h' | h'
        · exact absurd h' hab
        · exact h'
      · exact hb x hx

theorem sortJs_pairwise (l : List String) :
    List.Pairwise (fun x y => lexLe x y = true) (sortJs l) := by
  induction l with
  | nil => simp [sortJs]
  | cons a as ih => exact insertSorted_pairwise a (sortJs as) ih

theorem dedupSeen_cons (seen : List String) (a : String) (as : List String) :
    dedupSeen seen (a :: as) =
      if seen.contains a = true then dedupSeen seen as
      else a :: dedupSeen (a :: seen) as := rfl

theorem mem_dedupSeen {x : String} : ∀ {l seen : List String},
    x ∈ dedupSeen seen l ↔ x ∈ l ∧ x ∉ seen := by
  intro l
  induction l with
  | nil => intro seen; simp [dedupSeen]
  | cons a as ih =>
    intro seen
    rw [dedupSeen_cons]
    by_cases h : a ∈ seen
    · rw [if_pos (by simpa using h), ih]
      constructor
      · rintro ⟨hx, hs⟩
        exact ⟨List.mem_cons_of_mem a hx, hs⟩
      · rintro ⟨hx, hs⟩
        rcases List.mem_cons.mp hx with rfl | hx
        · exact absurd h hs
        · exact ⟨hx, hs⟩
    · rw [if_neg (by simpa using h)]
      constructor
      · intro hx
        rcases List.mem_cons.mp hx with rfl | hx
        · exact ⟨List.mem_cons_self x as, h⟩
        · rcases ih.mp hx with ⟨hmem, hns⟩
          have hxa : x ≠ a := fun he => hns (he ▸ List.mem_cons_self a seen)
          have hxs : x ∉ seen := fun he => hns (List.mem_cons_of_mem a he)
          exact ⟨List.mem_cons_of_mem a hmem, hxs⟩
      · rintro ⟨hx, hs⟩
        rcases List.mem_cons.mp hx with rfl | hx
        · exact List.mem_cons_self x _
        · by_cases hxa : x = a
          · subst hxa; exact List.mem_cons_self x _
          · refine List.mem_cons_of_mem a (ih.mpr ⟨hx, ?_⟩)
            intro hmem
            rcases List.mem_cons.mp hmem with h1 | h1
            · exact hxa h1
            · exact hs h1

theorem nodup_dedupSeen : ∀ (l seen : List String), (dedupSeen seen l).Nodup := by
  intro l
  induction l with
  | nil => intro seen; simp [dedupSeen]
  | cons a as ih =>
    intro seen
    rw [dedupSeen_cons]
    by_cases h : a ∈ seen
    · rw [if_pos (by simpa using h)]
      exact ih seen
    · rw [if_neg (by simpa using h)]
      refine List.nodup_cons.mpr ⟨?_, ih (a :: seen)⟩
      intro hmem
      rcases mem_dedupSeen.mp hmem with ⟨_, hc⟩
      exact hc (List.mem_cons_self a seen)

theorem mem_dedupFirst {x : String} {l : List String} : x ∈ dedupFirst l ↔ x ∈ l := by
  unfold dedupFirst
  rw [mem_dedupSeen]
  simp

theorem nodup_dedupFirst (l : List String) : (dedupFirst l).Nodup :=
  nodup_dedupSeen l []


/-! ## Pipeline lemmas -/

theorem mergeApksModel_outputWritten (env : PipeEnv) (p : String) :
    (mergeApksModel env p).2.outputWritten = (runBody env p).outputWritten := by
  unfold mergeApksModel
  cases env.rmRes <;> rfl

theorem mergeApksModel_packInput (env : PipeEnv) (p : String) :
    (mergeApksModel env p).2.packInput = (runBody env p).packInput := by
  unfold mergeApksModel
  cases env.rmRes <;> rfl

theorem mergeApksModel_result_of_rm_ok (env : PipeEnv) (p : String)
    (h : env.rmRes = .ok ()) : (mergeApksModel env p).1 = (runBody env p).result := by
  unfold mergeApksModel
  rw [h]

/-- Exhaustive branch analysis of the `try` body: either every stage
succeeded, the output was written and the body returns the output path, or
some stage failed, the body carries an error and the output was not
written. -/
theorem runBody_total (env : PipeEnv) (p : String) :
    ((runBody env p).result = .ok p ∧ (runBody env p).outputWritten = true ∧
      (∃ files, env.prepFiles = .ok files ∧ files ≠ [] ∧
        unpackAll env.unpackRes files = .ok ()) ∧
      (∃ mi, env.mergeRes = .ok mi ∧
        env.packRes (deleteSignatureRelatedFiles mi) = .ok ()) ∧
      env.manifestRes = .ok () ∧ env.distFiles ≠ [] ∧
      env.zipalignRes = .ok () ∧ env.copyRes = .ok ()) ∨
    ((∃ e, (runBody env p).result = .error e) ∧ (runBody env p).outputWritten = false) := by
  rcases hprep : env.prepFiles with e | files
  · right
    refine ⟨⟨e, ?_⟩, ?_⟩ <;> simp only [runBody, hprep]
  · by_cases hlen : files.length < 1
    · right
      refine ⟨⟨"No APK files found in input path", ?_⟩, ?_⟩ <;>
        simp only [runBody, hprep, hlen, if_true]
    · have hfne : files ≠ [] := by
        intro hnil
        exact hlen (by simp [hnil])
      rcases hu : unpackAll env.unpackRes files with e | u
      · right
        refine ⟨⟨e, ?_⟩, ?_⟩ <;> simp only [runBody, hprep, hlen, if_false, hu]
      · cases u
        rcases hm : env.mergeRes with e | mi
        · right
          refine ⟨⟨e, ?_⟩, ?_⟩ <;> simp only [runBody, hprep, hlen, if_false, hu, hm]
        · rcases hman : env.manifestRes with e | m
          · right
            refine ⟨⟨e, ?_⟩, ?_⟩ <;>
              simp only [runBody, hprep, hlen, if_false, hu, hm, hman]
          · cases m
            rcases hpk : env.packRes (deleteSignatureRelatedFiles mi) with e | pk
            · right
              refine ⟨⟨"Failed to pack APK: " ++ e, ?_⟩, ?_⟩ <;>
                simp only [runBody, hprep, hlen, if_false, hu, hm, hman, hpk]
            · cases pk
              rcases hd : env.distFiles.head? with _ | d
              · right
                refine ⟨⟨"Result APK not found in dist", ?_⟩, ?_⟩ <;>
                  simp only [runBody, hprep, hlen, if_false, hu, hm, hman, hpk, hd]
              · rcases hz : env.zipalignRes with e | z
                · right
                  refine ⟨⟨"Failed to zipalign: " ++ e, ?_⟩, ?_⟩ <;>
                    simp only [runBody, hprep, hlen, if_false, hu, hm, hman, hpk, hd, hz]
                · cases z
                  rcases hc : env.copyRes with e | c
                  · right
                    refine ⟨⟨e, ?_⟩, ?_⟩ <;>
                      simp only [runBody, hprep, hlen, if_false, hu, hm, hman, hpk, hd,
                        hz, hc]
                  · cases c
                    left
                    have hdne : env.distFiles ≠ [] := by
                      intro hnil
                      rw [hnil] at hd
                      simp at hd
                    refine ⟨?_, ?_, ⟨files, rfl, hfne, hu⟩, ⟨mi, rfl, hpk⟩,
                      rfl, hdne, rfl, rfl⟩ <;>
                      simp only [runBody, hprep, hlen, if_false, hu, hm, hman, hpk, hd,
                        hz, hc]

/-! ## Claim C4: all-or-nothing destination -/

/-- C4 (amended): the destination path is written only when preparation,
unpack, merge, manifest sanitization, repack, dist lookup, zipalign and the
final copy all succeeded; when any stage fails the destination is untouched
and, provided the workspace cleanup succeeds, the request terminates with
that stage's (wrapped) error.  Each stage case names its exact error. -/
theorem mergeApks_all_or_nothing (env : PipeEnv) (p : String) :
    ((mergeApksModel env p).2.outputWritten = true →
      (runBody env p).result = .ok p ∧
      (∃ files, env.prepFiles = .ok files ∧ files ≠ [] ∧
        unpackAll env.unpackRes files = .ok ()) ∧
      (∃ mi, env.mergeRes = .ok mi ∧
        env.packRes (deleteSignatureRelatedFiles mi) = .ok ()) ∧
      env.manifestRes = .ok () ∧ env.distFiles ≠ [] ∧
      env.zipalignRes = .ok () ∧ env.copyRes = .ok ()) ∧
    (∀ e, (runBody env p).result = .error e →
      (mergeApksModel env p).2.outputWritten = false ∧
      (env.rmRes = .ok () → (mergeApksModel env p).1 = .error e)) ∧
    (∀ e, env.prepFiles = .error e → (runBody env p).result = .error e) ∧
    (env.prepFiles = .ok [] →
      (runBody env p).result = .error "No APK files found in input path") ∧
    (∀ files e, env.prepFiles = .ok files →
      unpackAll env.unpackRes files = .error e → (runBody env p).result = .error e) ∧
    (∀ files e, env.prepFiles = .ok files → files ≠ [] →
      unpackAll env.unpackRes files = .ok () → env.mergeRes = .error e →
      (runBody env p).result = .error e) ∧
    (∀ files mi e, env.prepFiles = .ok files → files ≠ [] →
      unpackAll env.unpackRes files = .ok () → env.mergeRes = .ok mi →
      env.manifestRes = .error e → (runBody env p).result = .error e) ∧
    (∀ files mi e, env.prepFiles = .ok files → files ≠ [] →
      unpackAll env.unpackRes files = .ok () → env.mergeRes = .ok mi →
      env.manifestRes = .ok () →
      env.packRes (deleteSignatureRelatedFiles mi) = .error e →
      (runBody env p).result = .error ("Failed to pack APK: " ++ e)) ∧
    (∀ files mi, env.prepFiles = .ok files → files ≠ [] →
      unpackAll env.unpackRes files = .ok () → env.mergeRes = .ok mi →
      env.manifestRes = .ok () →
      env.packRes (deleteSignatureRelatedFiles mi) = .ok () → env.distFiles = [] →
      (runBody env p).result = .error "Result APK not found in dist") ∧
    (∀ files mi e, env.prepFiles = .ok files → files ≠ [] →
      unpackAll env.unpackRes files = .ok () → env.mergeRes = .ok mi →
      env.manifestRes = .ok () →
      env.packRes (deleteSignatureRelatedFiles mi) = .ok () → env.distFiles ≠ [] →
      env.zipalignRes = .error e →
      (runBody env p).result = .error ("Failed to zipalign: " ++ e)) ∧
    (∀ files mi e, env.prepFiles = .ok files → files ≠ [] →
      unpackAll env.unpackRes files = .ok () → env.mergeRes = .ok mi →
      env.manifestRes = .ok () →
      env.packRes (deleteSignatureRelatedFiles mi) = .ok () → env.distFiles ≠ [] →
      env.zipalignRes = .ok () → env.copyRes = .error e →
      (runBody env p).result = .error e) := by
  have hw := mergeApksModel_outputWritten env p
  refine ⟨?_, ?_, ?_, ?_, ?_, ?_, ?_, ?_, ?_, ?_, ?_⟩
  · intro h
    rw [hw] at h
    rcases runBody_total env p with ⟨h1, _, h3⟩ | ⟨_, h2⟩
    · exact ⟨h1, h3⟩
    · rw [h] at h2; cases h2
  · intro e he
    rcases runBody_total env p with ⟨h1, _, _⟩ | ⟨_, h2⟩
    · rw [he] at h1; cases h1
    · rw [hw, h2]
      refine ⟨rfl, fun hrm => ?_⟩
      rw [mergeApksModel_result_of_rm_ok env p hrm, he]
  · intro e he
    simp only [runBody, he]
  · intro he
    simp only [runBody, he, List.length_nil, if_true]
    norm_num
  · intro files e hprep hu
    rcases files with _ | ⟨f, fs⟩
    · exact Except.noConfusion hu
    · have hlen : ¬ (f :: fs).length < 1 := by simp
      simp only [runBody, hprep, hlen, if_false, hu]
  · intro files e hprep hne hu hm
    have hlen : ¬ files.length < 1 := by
      have := List.length_pos.mpr hne; omega
    simp only [runBody, hprep, hlen, if_false, hu, hm]
  · intro files mi e hprep hne hu hm hman
    have hlen : ¬ files.length < 1 := by
      have := List.length_pos.mpr hne; omega
    simp only [runBody, hprep, hlen, if_false, hu, hm, hman]
  · intro files mi e hprep hne hu hm hman hpk
    have hlen : ¬ files.length < 1 := by
      have := List.length_pos.mpr hne; omega
    simp only [runBody, hprep, hlen, if_false, hu, hm, hman, hpk]
  · intro files mi hprep hne hu hm hman hpk hdist
    have hlen : ¬ files.length < 1 := by
      have := List.length_pos.mpr hne; omega
    simp only [runBody, hprep, hlen, if_false, hu, hm, hman, hpk, hdist,
      List.head?_nil]
  · intro files mi e hprep hne hu hm hman hpk hdist hz
    have hlen : ¬ files.length < 1 := by
      have := List.length_pos.mpr hne; omega
    rcases hd : env.distFiles with _ | ⟨a, t⟩
    · exact absurd hd hdist
    · simp only [runBody, hprep, hlen, if_false, hu, hm, hman, hpk, hd,
        List.head?_cons, hz]
  · intro files mi e hprep hne hu hm hman hpk hdist hz hc
    have hlen : ¬ files.length < 1 := by
      have := List.length_pos.mpr hne; omega
    rcases hd : env.distFiles with _ | ⟨a, t⟩
    · exact absurd hd hdist
    · simp only [runBody, hprep, hlen, if_false, hu, hm, hman, hpk, hd,
        List.head?_cons, hz, hc]

/-- C4 witness for the amended theorem: with the repack tool failing and
cleanup succeeding, the request terminates with the wrapped repack error and
the destination is untouched. -/
theorem mergeApks_all_or_nothing_witness :
    (runBody envPackFails "/out/merged.apk").result =
      .error "Failed to pack APK: brut: exit code 1" ∧
    (mergeApksModel envPackFails "/out/merged.apk").2.outputWritten = false ∧
    (mergeApksModel envPackFails "/out/merged.apk").1 =
      .error "Failed to pack APK: brut: exit code 1" := by
  have h := mergeApks_all_or_nothing envPackFails "/out/merged.apk"
  have hstage := h.2.2.2.2.2.2.2.1 ["base.apk", "split_config.arm64.apk"]
    (some ["CERT.RSA", "CERT.SF", "MANIFEST.MF", "keep.txt"]) "brut: exit code 1"
    rfl (by decide) rfl rfl rfl rfl
  have hout := h.2.1 "Failed to pack APK: brut: exit code 1" hstage
  exact ⟨hstage, hout.1, hout.2 rfl⟩

/-- C4 counterexample to the claim as stated: the repack stage fails, yet
because the workspace cleanup also fails, the request does not terminate with
the repack stage's error (the cleanup rejection replaces it); the destination
is still untouched. -/
theorem mergeApks_stage_error_masked :
    envPackRmFail.packRes
        (deleteSignatureRelatedFiles
          (some ["CERT.RSA", "CERT.SF", "MANIFEST.MF", "keep.txt"])) =
      .error "brut: exit code 1" ∧
    (mergeApksModel envPackRmFail "/out/merged.apk").1 ≠
      .error "Failed to pack APK: brut: exit code 1" ∧
    (mergeApksModel envPackRmFail "/out/merged.apk").1 = .error "EPERM: rm failed" ∧
    (mergeApksModel envPackRmFail "/out/merged.apk").2.outputWritten = false := by
  refine ⟨rfl, ?_, rfl, rfl⟩
  decide

/-! ## Claim C5: workspace removal on every exit path -/

/-- C5 (amended): the `finally` block always runs the recursive removal, and
whenever that removal call itself succeeds the workspace directory is gone,
on every exit path (whatever the stages did). -/
theorem mergeApks_workspace_removed (env : PipeEnv) (p : String)
    (h : env.rmRes = .ok ()) :
    (mergeApksModel env p).2.workspaceRemoved = true := by
  unfold mergeApksModel
  rw [h]

/-- C5 witness: a failing repack stage still ends with the workspace
removed. -/
theorem mergeApks_workspace_removed_witness :
    (mergeApksModel envPackFails "/out/merged.apk").2.workspaceRemoved = true :=
  mergeApks_workspace_removed envPackFails "/out/merged.apk" rfl

/-- C5 counterexample to the claim as stated: when the removal call itself
rejects, the workspace directory is not removed, even though the pipeline
body succeeded. -/
theorem mergeApks_workspace_left_behind :
    (runBody envRmFails "/out/merged.apk").result = .ok "/out/merged.apk" ∧
    (mergeApksModel envRmFails "/out/merged.apk").2.workspaceRemoved = false := by
  exact ⟨rfl, rfl⟩

/-! ## Claim C9: cleanup failures are escalated, not logged -/

/-- C9: evaluation of the model at a merge whose stages all succeed but whose
workspace removal rejects: the `finally` block's rejection replaces the
pipeline's successful result, so the caller sees the cleanup error instead of
the output path — the cleanup failure is escalated and masks the result. -/
theorem cleanup_failure_masks_result :
    (runBody envRmFails "/out/merged.apk").result = .ok "/out/merged.apk" ∧
    (runBody envRmFails "/out/merged.apk").outputWritten = true ∧
    (mergeApksModel envRmFails "/out/merged.apk").1 = .error "EBUSY: rm failed" :=
  ⟨rfl, rfl, rfl⟩

/-! ## Claim C10: signature file deletion -/

/-- C10: `deleteSignatureRelatedFiles` does nothing when `original/META-INF`
is absent; otherwise it removes exactly the files ending in `.RSA` or `.SF`
or named `MANIFEST.MF`, keeping every other file (in order, untouched); and
the repack stage receives precisely the cleaned listing produced from the
merge result, so the deletion happens before the base tree is repacked. -/
theorem deleteSignatureRelatedFiles_spec :
    deleteSignatureRelatedFiles none = none ∧
    (∀ files : List String,
      ∃ kept, deleteSignatureRelatedFiles (some files) = some kept ∧
        kept.Sublist files ∧
        (∀ f, f ∈ kept ↔ f ∈ files ∧
          ¬(jsEndsWith f ".RSA" = true ∨ jsEndsWith f ".SF" = true ∨
            f = "MANIFEST.MF"))) ∧
    (∀ (env : PipeEnv) (p : String) (mi : Option (List String)),
      (mergeApksModel env p).2.packInput = some mi →
      ∃ orig, env.mergeRes = .ok orig ∧ mi = deleteSignatureRelatedFiles orig) := by
  refine ⟨rfl, ?_, ?_⟩
  · intro files
    refine ⟨files.filter (fun f => !(isSignatureRelated f)), rfl,
      List.filter_sublist files, ?_⟩
    intro f
    rw [List.mem_filter]
    simp [isSignatureRelated, and_assoc]
  · intro env p mi h
    rw [mergeApksModel_packInput] at h
    rcases hprep : env.prepFiles with e | files
    · simp only [runBody, hprep] at h
      exact Option.noConfusion h
    · by_cases hlen : files.length < 1
      · simp only [runBody, hprep, hlen, if_true] at h
        exact Option.noConfusion h
      · rcases hu : unpackAll env.unpackRes files with e | u
        · simp only [runBody, hprep, hlen, if_false, hu] at h
          exact Option.noConfusion h
        · rcases hm : env.mergeRes with e | mi'
          · simp only [runBody, hprep, hlen, if_false, hu, hm] at h
            exact Option.noConfusion h
          · refine ⟨mi', rfl, ?_⟩
            rcases hman : env.manifestRes with e | m
            · simp only [runBody, hprep, hlen, if_false, hu, hm, hman] at h
              exact Option.noConfusion h
            · rcases hpk : env.packRes (deleteSignatureRelatedFiles mi') with e | pk
              · simp only [runBody, hprep, hlen, if_false, hu, hm, hman, hpk] at h
                exact (Option.some.injEq _ _ ▸ h).symm
              · rcases hd : env.distFiles.head? with _ | d
                · simp only [runBody, hprep, hlen, if_false, hu, hm, hman, hpk,
                    hd] at h
                  exact (Option.some.injEq _ _ ▸ h).symm
                · rcases hz : env.zipalignRes with e | z
                  · simp only [runBody, hprep, hlen, if_false, hu, hm, hman, hpk,
                      hd, hz] at h
                    exact (Option.some.injEq _ _ ▸ h).symm
                  · rcases hc : env.copyRes with e | c
                    · simp only [runBody, hprep, hlen, if_false, hu, hm, hman, hpk,
                        hd, hz, hc] at h
                      exact (Option.some.injEq _ _ ▸ h).symm
                    · simp only [runBody, hprep, hlen, if_false, hu, hm, hman, hpk,
                        hd, hz, hc] at h
                      exact (Option.some.injEq _ _ ▸ h).symm

/-! ## Claim C7: manifest sanitizer idempotence -/

theorem replaceRegexAux_of_not_occurs (pat : List PatChar) (repl : List Char) :
    ∀ (fuel : Nat) (s : List Char), regexOccurs pat s = false →
      replaceRegexAux pat repl fuel s = s := by
  intro fuel
  induction fuel with
  | zero => intro s _; cases s <;> rfl
  | succ n ih =>
    intro s h
    cases s with
    | nil => rfl
    | cons c rest =>
      rw [regexOccurs, Bool.or_eq_false_iff] at h
      have hmp : matchPrefix pat (c :: rest) = none := by
        cases hm : matchPrefix pat (c :: rest)
        · rfl
        · have h1 := h.1
          rw [hm] at h1
          cases h1
      simp only [replaceRegexAux, hmp]
      rw [ih rest h.2]

theorem jsReplaceRegex_of_not_occurs (s pat repl : String)
    (h : regexOccurs (regexOfString pat) s.data = false) : jsReplaceRegex s pat repl = s := by
  unfold jsReplaceRegex replaceRegex
  rw [replaceRegexAux_of_not_occurs (regexOfString pat) repl.data s.data.length s.data h]

/-- C7 counterexample: the sanitizer is not idempotent on every document.
On a manifest containing two overlapping occurrences of the split-required
attribute (the two occurrences share one space), one pass removes only the
first occurrence — global replacement is non-overlapping and left-to-right —
and the leftover text again contains the pattern, so a second pass changes
the document again. -/
theorem updateManifestData_not_idempotent :
    updateManifestData (updateManifestData manifestOverlap) ≠
      updateManifestData manifestOverlap := by
  decide

/-- C7 (amended): the sanitizer is idempotent on every manifest document
whose one-pass output contains no match of any of the four substitution
regexes (in particular on any document where the rewrites do not create new
matches); a second application then changes nothing. -/
theorem updateManifestData_idempotent_of_clean (d : String)
    (h : ∀ p ∈ manifestPatterns,
      regexOccurs (regexOfString p) (updateManifestData d).data = false) :
    updateManifestData (updateManifestData d) = updateManifestData d := by
  have h1 := h _ (show " android:isSplitRequired=\"true\" " ∈ manifestPatterns by
    simp [manifestPatterns])
  have h2 := h _ (show
    "<meta-data android:name=\"com.android.vending.splits.required\" android:value=\"true\"/>"
      ∈ manifestPatterns by simp [manifestPatterns])
  have h3 := h _ (show
    "<meta-data android:name=\"com.android.vending.splits\" android:resource=\"@xml/splits0\"/>"
      ∈ manifestPatterns by simp [manifestPatterns])
  have h4 := h _ (show "android:value=\"STAMP_TYPE_DISTRIBUTION_APK\"" ∈ manifestPatterns by
    simp [manifestPatterns])
  set Y := updateManifestData d with hY
  have e1 := jsReplaceRegex_of_not_occurs Y " android:isSplitRequired=\"true\" " " " h1
  have e2 := jsReplaceRegex_of_not_occurs Y
    "<meta-data android:name=\"com.android.vending.splits.required\" android:value=\"true\"/>"
    "" h2
  have e3 := jsReplaceRegex_of_not_occurs Y
    "<meta-data android:name=\"com.android.vending.splits\" android:resource=\"@xml/splits0\"/>"
    "" h3
  have e4 := jsReplaceRegex_of_not_occurs Y "android:value=\"STAMP_TYPE_DISTRIBUTION_APK\""
    "android:value=\"STAMP_TYPE_STANDALONE_APK\"" h4
  show updateManifestData Y = Y
  unfold updateManifestData
  simp only [e1, e2, e3, e4]

/-- C7 witness: a concrete manifest satisfying the amended hypothesis. -/
theorem updateManifestData_idempotent_witness :
    updateManifestData (updateManifestData manifestClean) =
      updateManifestData manifestClean :=
  updateManifestData_idempotent_of_clean manifestClean (by decide)


/-! ## Claim C3: input collection order -/

theorem lexLeList_refl (a : List Char) : lexLeList a a = true := by
  induction a with
  | nil => rfl
  | cons x xs ih => rw [lexLeList_cons, if_pos rfl]; exact ih

theorem lexLe_refl (a : String) : lexLe a a = true := lexLeList_refl a.data

theorem jsIndexOfFrom_not_mem (a : String) :
    ∀ (l : List String) (k : Nat), a ∉ l → jsIndexOfFrom a l k = -1 := by
  intro l
  induction l with
  | nil => intro k _; rfl
  | cons x rest ih =>
    intro k hnm
    have hx : ¬ x = a := fun h => hnm (h ▸ List.mem_cons_self x rest)
    rw [jsIndexOfFrom, if_neg hx]
    exact ih (k + 1) (fun h => hnm (List.mem_cons_of_mem x h))

theorem jsIndexOfFrom_mem (a : String) :
    ∀ (l : List String) (k : Nat), a ∈ l →
      ∃ i : Nat, jsIndexOfFrom a l k = ((k + i : Nat) : Int) ∧ l.get? i = some a := by
  intro l
  induction l with
  | nil => intro k h; cases h
  | cons x rest ih =>
    intro k hmem
    by_cases hx : x = a
    · refine ⟨0, ?_, by simp [hx]⟩
      rw [jsIndexOfFrom, if_pos hx]
      norm_num
    · have hmem' : a ∈ rest := by
        rcases List.mem_cons.mp hmem with h | h
        · exact absurd h.symm hx
        · exact h
      obtain ⟨i, hidx, hget⟩ := ih (k + 1) hmem'
      refine ⟨i + 1, ?_, by simpa using hget⟩
      rw [jsIndexOfFrom, if_neg hx, hidx]
      congr 1
      omega

theorem splice_to_front (files : List String) (i : Nat)
    (hget : files.get? i = some "base.apk")
    (hpair : List.Pairwise (fun a b => lexLe a b = true) files) :
    ("base.apk" :: files.eraseIdx i).Perm files ∧
    List.Pairwise (fun a b => lexLe a b = true) (files.eraseIdx i) := by
  obtain ⟨hlt, hel⟩ := List.get?_eq_some.mp hget
  have hgetel : files[i] = "base.apk" := by
    simpa [List.get_eq_getElem] using hel
  constructor
  · have hsplit : files = files.take i ++ "base.apk" :: files.drop (i + 1) := by
      rw [← hgetel, ← List.drop_eq_getElem_cons hlt, List.take_append_drop]
    rw [List.eraseIdx_eq_take_drop_succ]
    refine List.Perm.trans List.perm_middle.symm ?_
    rw [← hsplit]
  · exact List.Pairwise.sublist (List.eraseIdx_sublist files i) hpair

/-- C3: `prepareApkFiles` returns the `.apk` entries of the listing as a
permutation; when `base.apk` is among them it comes first and the remaining
entries keep their (lexicographically sorted) relative order; when it is
absent the whole result is lexicographically sorted, so the first entry (the
one treated as the base) is a lexicographically smallest file. -/
theorem prepareApkFiles_base_first (dirListing : List String) :
    (prepareApkFiles dirListing).Perm
      (dirListing.filter (fun f => jsEndsWith f ".apk")) ∧
    ("base.apk" ∈ dirListing.filter (fun f => jsEndsWith f ".apk") →
      (prepareApkFiles dirListing).head? = some "base.apk" ∧
      List.Pairwise (fun a b => lexLe a b = true) (prepareApkFiles dirListing).tail) ∧
    ("base.apk" ∉ dirListing.filter (fun f => jsEndsWith f ".apk") →
      List.Pairwise (fun a b => lexLe a b = true) (prepareApkFiles dirListing) ∧
      ∀ x ∈ prepareApkFiles dirListing, ∀ b ∈ (prepareApkFiles dirListing).head?,
        lexLe b x = true) := by
  have hperm := sortJs_perm (dirListing.filter (fun f => jsEndsWith f ".apk"))
  have hpair := sortJs_pairwise (dirListing.filter (fun f => jsEndsWith f ".apk"))
  revert hperm hpair
  generalize hfs : sortJs (dirListing.filter (fun f => jsEndsWith f ".apk")) = files
  intro hperm hpair
  have hdef : prepareApkFiles dirListing =
      (if jsIndexOf "base.apk" files > 0 then
        "base.apk" :: files.eraseIdx (jsIndexOf "base.apk" files).toNat
      else files) := by
    simp only [prepareApkFiles, hfs]
  by_cases hmem : "base.apk" ∈ dirListing.filter (fun f => jsEndsWith f ".apk")
  · have hmem' : "base.apk" ∈ files := hperm.mem_iff.mpr hmem
    obtain ⟨i, hidx, hget⟩ := jsIndexOfFrom_mem "base.apk" files 0 hmem'
    have hidx' : jsIndexOf "base.apk" files = (i : Int) := by
      simpa [jsIndexOf] using hidx
    rcases Nat.eq_zero_or_pos i with hi0 | hipos
    · subst hi0
      have hout : prepareApkFiles dirListing = files := by
        rw [hdef, hidx', if_neg (by norm_num)]
      rw [hout]
      have hhead : files.head? = some "base.apk" := by
        rw [← List.get?_zero]
        exact hget
      refine ⟨hperm, fun _ => ⟨hhead, ?_⟩, fun hn => absurd hmem hn⟩
      cases files with
      | nil => simp
      | cons y ys => simpa using (List.pairwise_cons.mp hpair).2
    · have hout : prepareApkFiles dirListing = "base.apk" :: files.eraseIdx i := by
        rw [hdef, hidx', if_pos (by exact_mod_cast hipos)]
        norm_num
      obtain ⟨hp, hq⟩ := splice_to_front files i hget hpair
      rw [hout]
      exact ⟨hp.trans hperm, fun _ => ⟨rfl, hq⟩, fun hn => absurd hmem hn⟩
  · have hmem' : "base.apk" ∉ files := fun h => hmem (hperm.mem_iff.mp h)
    have hidx : jsIndexOf "base.apk" files = -1 :=
      jsIndexOfFrom_not_mem "base.apk" files 0 hmem'
    have hout : prepareApkFiles dirListing = files := by
      rw [hdef, hidx, if_neg (by norm_num)]
    rw [hout]
    refine ⟨hperm, fun hmemc => absurd hmemc hmem, fun _ => ⟨hpair, ?_⟩⟩
    intro x hx b hb
    cases files with
    | nil => cases hx
    | cons y ys =>
      simp only [List.head?_cons, Option.mem_def, Option.some.injEq] at hb
      subst hb
      rcases List.mem_cons.mp hx with rfl | hx
      · exact lexLe_refl x
      · exact (List.pairwise_cons.mp hpair).1 x hx

/-- C3 witness: a listing holding `base.apk` out of lexicographic position
together with a non-archive file. -/
theorem prepareApkFiles_base_first_witness :
    (prepareApkFiles ["split_b.apk", "base.apk", "a.apk", "readme.txt"]).head? =
      some "base.apk" :=
  ((prepareApkFiles_base_first ["split_b.apk", "base.apk", "a.apk", "readme.txt"]).2.1
    (by decide)).1

/-! ## Claim C2: config block merge -/

/-- C2: when the secondary file has at least one do-not-compress item line
and the base file has a located item-line range, `mergeApktoolYml` replaces
exactly the lines of that range with a list that is lexicographically sorted,
free of duplicates, and contains exactly the union of the base range's lines
and the secondary's item lines (deduplicated by exact line match); every line
before and after the range is kept unchanged. -/
theorem mergeApktoolYml_sorted_union (srcLines dstLines : List String)
    (h1 : getDoNotCompressLines srcLines ≠ [])
    (h2 : (getDoNotCompressRange dstLines).startIndex ≠ -1)
    (h3 : (getDoNotCompressRange dstLines).endIndex ≠ -1) :
    ∃ items : List String,
      mergeApktoolYml srcLines dstLines =
        dstLines.take (getDoNotCompressRange dstLines).startIndex.toNat ++ items ++
          dstLines.drop ((getDoNotCompressRange dstLines).endIndex.toNat + 1) ∧
      List.Pairwise (fun a b => lexLe a b = true) items ∧
      items.Nodup ∧
      (∀ l, l ∈ items ↔
        l ∈ (getDoNotCompressRange dstLines).lines ∨
          l ∈ getDoNotCompressLines srcLines) := by
  refine ⟨sortedUnion (getDoNotCompressRange dstLines).lines
    (getDoNotCompressLines srcLines), ?_, ?_, ?_, ?_⟩
  · simp only [mergeApktoolYml]
    rw [if_neg (by simpa using h1), if_pos ⟨h2, h3⟩]
  · exact sortJs_pairwise _
  · exact (sortJs_perm _).nodup_iff.mpr (nodup_dedupFirst _)
  · intro l
    unfold sortedUnion
    rw [(sortJs_perm _).mem_iff, mem_dedupFirst, List.mem_append]

/-- C2 witness: the specification's own example, with the union spliced into
the base's range and the resulting file computed explicitly. -/
theorem mergeApktoolYml_sorted_union_witness :
    (∃ items : List String,
      mergeApktoolYml ["doNotCompress:", "- res/b.so", "- res/c.so"]
          ["doNotCompress:", "- res/a.so", "- res/b.so"] =
        (["doNotCompress:", "- res/a.so", "- res/b.so"]).take
            (getDoNotCompressRange
              ["doNotCompress:", "- res/a.so", "- res/b.so"]).startIndex.toNat ++
          items ++
          (["doNotCompress:", "- res/a.so", "- res/b.so"]).drop
            ((getDoNotCompressRange
              ["doNotCompress:", "- res/a.so", "- res/b.so"]).endIndex.toNat + 1) ∧
      List.Pairwise (fun a b => lexLe a b = true) items ∧
      items.Nodup ∧
      (∀ l, l ∈ items ↔
        l ∈ (getDoNotCompressRange ["doNotCompress:", "- res/a.so", "- res/b.so"]).lines ∨
          l ∈ getDoNotCompressLines ["doNotCompress:", "- res/b.so", "- res/c.so"])) ∧
    mergeApktoolYml ["doNotCompress:", "- res/b.so", "- res/c.so"]
        ["doNotCompress:", "- res/a.so", "- res/b.so"] =
      ["doNotCompress:", "- res/a.so", "- res/b.so", "- res/c.so"] :=
  ⟨mergeApktoolYml_sorted_union _ _ (by decide) (by decide) (by decide), by decide⟩

/-! ## Lemmas about directory entries -/

theorem findFile_dir_cons (es : List (String × Node)) (n : String) (rest : List String) :
    findFile (.dir es) (n :: rest) =
      (match lookupEntry n es with
       | none => none
       | some child => findFile child rest) := rfl

theorem lookupEntry_setEntry_self (n : String) (v : Node) (l : List (String × Node)) :
    lookupEntry n (setEntry n v l) = some v := by
  induction l with
  | nil => simp [setEntry, lookupEntry]
  | cons e rest ih =>
    rcases e with ⟨m, w⟩
    by_cases h : m = n
    · simp [setEntry, lookupEntry, h]
    · simp [setEntry, lookupEntry, h, ih]

theorem lookupEntry_setEntry_ne (n n' : String) (hne : n' ≠ n) (v : Node)
    (l : List (String × Node)) :
    lookupEntry n' (setEntry n v l) = lookupEntry n' l := by
  induction l with
  | nil =>
    simp only [setEntry, lookupEntry]
    rw [if_neg (fun h => hne h.symm)]
  | cons e rest ih =>
    rcases e with ⟨m, w⟩
    by_cases h : m = n
    · subst h
      simp only [setEntry, if_pos rfl, lookupEntry]
      rw [if_neg (fun h => hne h.symm), if_neg (fun h => hne h.symm)]
    · simp only [setEntry, if_neg h, lookupEntry]
      by_cases h2 : m = n'
      · rw [if_pos h2, if_pos h2]
      · rw [if_neg h2, if_neg h2]
        exact ih

theorem setEntry_eq_of_lookup (n : String) (v : Node) :
    ∀ l, lookupEntry n l = some v → setEntry n v l = l := by
  intro l
  induction l with
  | nil => intro h; cases h
  | cons e rest ih =>
    rcases e with ⟨m, w⟩
    intro h
    by_cases hm : m = n
    · rw [lookupEntry, if_pos hm] at h
      have hw : w = v := by injection h
      rw [setEntry, if_pos hm, hw]
    · rw [lookupEntry, if_neg hm] at h
      rw [setEntry, if_neg hm, ih h]

/-! ## Claim C1: the tree merge never overwrites base files -/

theorem mergeEntries_preserves :
    ∀ (es : List (String × Node)) (d r : Node),
      (∀ e ∈ es, PreservesFiles e.2) →
      mergeEntries es d = .ok r →
      ∀ (p : List String) (c : String), findFile d p = some c → findFile r p = some c := by
  intro es
  induction es with
  | nil =>
    intro d r _ hm p c hf
    simp only [mergeEntries] at hm
    cases hm
    exact hf
  | cons hd tl ih =>
    intro d r hch hm p c hf
    rcases hd with ⟨name, child⟩
    have hchild : PreservesFiles child := hch _ (List.mem_cons_self _ _)
    have htl : ∀ e ∈ tl, PreservesFiles e.2 := fun e he => hch e (List.mem_cons_of_mem _ he)
    cases child with
    | dir ces =>
      cases d with
      | file fc =>
        simp only [mergeEntries] at hm
        exact Except.noConfusion hm
      | dir des =>
        rcases hsub : mergeDirContents (.dir ces) (lookupEntry name des) with e | merged
        · simp only [mergeEntries, hsub] at hm
          exact Except.noConfusion hm
        · simp only [mergeEntries, hsub] at hm
          have hf' : findFile (.dir (setEntry name merged des)) p = some c := by
            cases p with
            | nil => simp [findFile] at hf
            | cons n rest =>
              rw [findFile_dir_cons] at hf ⊢
              by_cases hn : n = name
              · subst hn
                rcases hl : lookupEntry n des with _ | sub
                · rw [hl] at hf; cases hf
                · rw [hl] at hf
                  rw [lookupEntry_setEntry_self]
                  rw [hl] at hsub
                  exact hchild sub merged hsub rest c hf
              · rw [lookupEntry_setEntry_ne name n hn]
                exact hf
          exact ih _ r htl hm p c hf'
    | file c' =>
      cases d with
      | file fc =>
        simp only [mergeEntries] at hm
        exact Except.noConfusion hm
      | dir des =>
        rcases hl : lookupEntry name des with _ | sub
        · simp only [mergeEntries, hl] at hm
          have hf' : findFile (.dir (setEntry name (.file c') des)) p = some c := by
            cases p with
            | nil => simp [findFile] at hf
            | cons n rest =>
              rw [findFile_dir_cons] at hf ⊢
              by_cases hn : n = name
              · subst hn
                rw [hl] at hf; cases hf
              · rw [lookupEntry_setEntry_ne name n hn]
                exact hf
          exact ih _ r htl hm p c hf'
        · simp only [mergeEntries, hl] at hm
          exact ih _ r htl hm p c hf

theorem preserves_aux : ∀ (n : Nat) (src : Node), sizeOf src < n → PreservesFiles src := by
  intro n
  induction n with
  | zero => intro src h; omega
  | succ m ih =>
    intro src hlt
    cases src with
    | file c =>
      intro dst r hm
      simp only [mergeDirContents] at hm
      exact Except.noConfusion hm
    | dir es =>
      intro dst r hm p c hf
      have hch : ∀ e ∈ es, PreservesFiles e.2 := by
        intro e he
        apply ih
        have h2 := List.sizeOf_lt_of_mem he
        rcases e with ⟨a, b⟩
        have h3 : sizeOf (Node.dir es) = 1 + sizeOf es := by simp
        have h4 : sizeOf ((a, b) : String × Node) = 1 + sizeOf a + sizeOf b := by simp
        simp only [] at h2 ⊢
        omega
      simp only [mergeDirContents, Option.getD] at hm
      exact mergeEntries_preserves es dst r hch hm p c hf

/-- C1: every file present in the base (destination) tree before
`mergeDirContents` runs is present with identical content after a successful
merge — a secondary leaf is copied only where no file exists, so base content
(including files placed by earlier merges) is never overwritten, and a name
collision is silently skipped rather than raising an error. -/
theorem mergeDirContents_never_overwrites (src dst r : Node)
    (hm : mergeDirContents src (some dst) = .ok r) (p : List String) (c : String)
    (hf : findFile dst p = some c) : findFile r p = some c :=
  preserves_aux (sizeOf src + 1) src (Nat.lt_succ_self _) dst r hm p c hf

/-- C1 witness: the specification's collision example — base `res/x = A`,
secondary `res/x = B`; the merge succeeds silently and the merged tree still
holds `A` at `res/x`. -/
theorem mergeDirContents_never_overwrites_witness :
    mergeDirContents (Node.dir [("res", Node.dir [("x", Node.file "B")])])
        (some (Node.dir [("res", Node.dir [("x", Node.file "A")])])) =
      .ok (Node.dir [("res", Node.dir [("x", Node.file "A")])]) ∧
    findFile (Node.dir [("res", Node.dir [("x", Node.file "A")])]) ["res", "x"] =
      some "A" :=
  ⟨rfl, mergeDirContents_never_overwrites
    (Node.dir [("res", Node.dir [("x", Node.file "B")])])
    (Node.dir [("res", Node.dir [("x", Node.file "A")])])
    (Node.dir [("res", Node.dir [("x", Node.file "A")])])
    rfl ["res", "x"] "A" rfl⟩

/-! ## Claim C6: the tree merge is idempotent -/

theorem mergeEntries_dir_shape :
    ∀ (es : List (String × Node)) (des : List (String × Node)) (r : Node),
      mergeEntries es (.dir des) = .ok r → ∃ res, r = .dir res := by
  intro es
  induction es with
  | nil =>
    intro des r hm
    simp only [mergeEntries] at hm
    cases hm
    exact ⟨des, rfl⟩
  | cons hd tl ih =>
    intro des r hm
    rcases hd with ⟨name, child⟩
    cases child with
    | dir ces =>
      rcases hsub : mergeDirContents (.dir ces) (lookupEntry name des) with e | merged
      · simp only [mergeEntries, hsub] at hm
        exact Except.noConfusion hm
      · simp only [mergeEntries, hsub] at hm
        exact ih _ r hm
    | file c =>
      rcases hl : lookupEntry name des with _ | sub
      · simp only [mergeEntries, hl] at hm
        exact ih _ r hm
      · simp only [mergeEntries, hl] at hm
        exact ih _ r hm

theorem mergeEntries_untouched :
    ∀ (es : List (String × Node)) (d r : Node) (n : String),
      mergeEntries es d = .ok r → (∀ e ∈ es, e.1 ≠ n) →
      entryAt n r = entryAt n d := by
  intro es
  induction es with
  | nil =>
    intro d r n hm _
    simp only [mergeEntries] at hm
    cases hm
    rfl
  | cons hd tl ih =>
    intro d r n hm hk
    rcases hd with ⟨name, child⟩
    have hne : name ≠ n := hk _ (List.mem_cons_self _ _)
    have htl : ∀ e ∈ tl, e.1 ≠ n := fun e he => hk e (List.mem_cons_of_mem _ he)
    cases child with
    | dir ces =>
      cases d with
      | file fc =>
        simp only [mergeEntries] at hm
        exact Except.noConfusion hm
      | dir des =>
        rcases hsub : mergeDirContents (.dir ces) (lookupEntry name des) with e | merged
        · simp only [mergeEntries, hsub] at hm
          exact Except.noConfusion hm
        · simp only [mergeEntries, hsub] at hm
          rw [ih _ r n hm htl]
          simp only [entryAt]
          exact lookupEntry_setEntry_ne name n (fun h => hne h.symm) merged des
    | file c =>
      cases d with
      | file fc =>
        simp only [mergeEntries] at hm
        exact Except.noConfusion hm
      | dir des =>
        rcases hl : lookupEntry name des with _ | sub
        · simp only [mergeEntries, hl] at hm
          rw [ih _ r n hm htl]
          simp only [entryAt]
          exact lookupEntry_setEntry_ne name n (fun h => hne h.symm) (.file c) des
        · simp only [mergeEntries, hl] at hm
          exact ih _ r n hm htl

theorem distinctKeys_head :
    ∀ (name : String) (child : Node) (tl : List (String × Node)),
      distinctKeys ((name, child) :: tl) = true →
      (∀ e ∈ tl, e.1 ≠ name) ∧ distinctKeys tl = true := by
  intro name child tl h
  rw [distinctKeys, Bool.and_eq_true] at h
  refine ⟨?_, h.2⟩
  intro e he heq
  have h1 := h.1
  rw [Bool.not_eq_eq_eq_not, Bool.not_true, List.any_eq_false] at h1
  exact absurd (by simp [heq]) (h1 e he)

theorem mergeEntries_idem :
    ∀ (es : List (String × Node)) (d r : Node),
      distinctKeys es = true →
      (∀ e ∈ es, IdempotentOn e.2) →
      mergeEntries es d = .ok r → mergeEntries es r = .ok r := by
  intro es
  induction es with
  | nil =>
    intro d r _ _ hm
    simp only [mergeEntries] at hm
    cases hm
    rfl
  | cons hd tl ih =>
    intro d r hdk hch hm
    rcases hd with ⟨name, child⟩
    obtain ⟨hkeys, hdk'⟩ := distinctKeys_head name child tl hdk
    have hchildIdem : IdempotentOn child := hch _ (List.mem_cons_self _ _)
    have htlIdem : ∀ e ∈ tl, IdempotentOn e.2 :=
      fun e he => hch e (List.mem_cons_of_mem _ he)
    cases child with
    | dir ces =>
      cases d with
      | file fc =>
        simp only [mergeEntries] at hm
        exact Except.noConfusion hm
      | dir des =>
        rcases hsub : mergeDirContents (.dir ces) (lookupEntry name des) with e | v
        · simp only [mergeEntries, hsub] at hm
          exact Except.noConfusion hm
        · simp only [mergeEntries, hsub] at hm
          obtain ⟨res, rfl⟩ := mergeEntries_dir_shape tl _ r hm
          have hlook : lookupEntry name res = some v := by
            have h := mergeEntries_untouched tl _ _ name hm hkeys
            simpa [entryAt, lookupEntry_setEntry_self] using h
          have hv2 : mergeDirContents (.dir ces) (lookupEntry name res) = .ok v := by
            rw [hlook]
            exact hchildIdem (lookupEntry name des) v hsub
          simp only [mergeEntries, hv2]
          rw [setEntry_eq_of_lookup name v res hlook]
          exact ih _ _ hdk' htlIdem hm
    | file c =>
      cases d with
      | file fc =>
        simp only [mergeEntries] at hm
        exact Except.noConfusion hm
      | dir des =>
        rcases hl : lookupEntry name des with _ | sub
        · simp only [mergeEntries, hl] at hm
          obtain ⟨res, rfl⟩ := mergeEntries_dir_shape tl _ r hm
          have hlook : lookupEntry name res = some (.file c) := by
            have h := mergeEntries_untouched tl _ _ name hm hkeys
            simpa [entryAt, lookupEntry_setEntry_self] using h
          simp only [mergeEntries, hlook]
          exact ih _ _ hdk' htlIdem hm
        · simp only [mergeEntries, hl] at hm
          obtain ⟨res, rfl⟩ := mergeEntries_dir_shape tl des r hm
          have hlook : lookupEntry name res = some sub := by
            have h := mergeEntries_untouched tl _ _ name hm hkeys
            simpa [entryAt, hl] using h
          simp only [mergeEntries, hlook]
          exact ih _ _ hdk' htlIdem hm

theorem wfChildren_mem :
    ∀ (es : List (String × Node)), wfChildren es = true →
      ∀ e ∈ es, e.2.wf = true := by
  intro es
  induction es with
  | nil => intro _ e he; cases he
  | cons hd tl ih =>
    intro h e he
    rcases hd with ⟨a, b⟩
    rw [wfChildren, Bool.and_eq_true] at h
    rcases List.mem_cons.mp he with rfl | he'
    · exact h.1
    · exact ih h.2 e he'

theorem idem_aux : ∀ (n : Nat) (src : Node), sizeOf src < n → src.wf = true →
    IdempotentOn src := by
  intro n
  induction n with
  | zero => intro src h; omega
  | succ m ih =>
    intro src hlt hwf
    cases src with
    | file c =>
      intro dst r hm
      simp only [mergeDirContents] at hm
      exact Except.noConfusion hm
    | dir es =>
      intro dst r hm
      rw [Node.wf, Bool.and_eq_true] at hwf
      have hch : ∀ e ∈ es, IdempotentOn e.2 := by
        intro e he
        apply ih
        · have h2 := List.sizeOf_lt_of_mem he
          rcases e with ⟨a, b⟩
          have h3 : sizeOf (Node.dir es) = 1 + sizeOf es := by simp
          have h4 : sizeOf ((a, b) : String × Node) = 1 + sizeOf a + sizeOf b := by simp
          simp only [] at h2 ⊢
          omega
        · exact wfChildren_mem es hwf.2 e he
      simp only [mergeDirContents, Option.getD] at hm ⊢
      exact mergeEntries_idem es _ r hwf.1 hch hm

/-- C6: for a well-formed secondary tree (directory listings have distinct
entry names, as on a real filesystem), a second run of `mergeDirContents`
into the already-merged destination succeeds and changes nothing. -/
theorem mergeDirContents_idempotent (src : Node) (hwf : src.wf = true)
    (dst : Option Node) (r : Node) (hm : mergeDirContents src dst = .ok r) :
    mergeDirContents src (some r) = .ok r :=
  idem_aux (sizeOf src + 1) src (Nat.lt_succ_self _) hwf dst r hm

/-- C6 witness: re-merging a concrete secondary subtree into the tree its
first merge produced changes nothing. -/
theorem mergeDirContents_idempotent_witness :
    mergeDirContents (Node.dir [("lib", Node.dir [("a.so", Node.file "S")])])
        (some (Node.dir [("lib", Node.dir [("a.so", Node.file "S")])])) =
      .ok (Node.dir [("lib", Node.dir [("a.so", Node.file "S")])]) :=
  mergeDirContents_idempotent (Node.dir [("lib", Node.dir [("a.so", Node.file "S")])])
    (by decide) none (Node.dir [("lib", Node.dir [("a.so", Node.file "S")])]) rfl

/-- C10 witness: the repack stage of a concrete successful run receives the
cleaned META-INF listing derived from the merge result. -/
theorem deleteSignatureRelatedFiles_spec_witness :
    ∃ orig, envAllOk.mergeRes = .ok orig ∧
      (some ["keep.txt"] : Option (List String)) = deleteSignatureRelatedFiles orig :=
  deleteSignatureRelatedFiles_spec.2.2 envAllOk "/out/merged.apk" (some ["keep.txt"]) rfl

/-! ## Claim C8: the two block scanners -/

theorem scanAgree_inside :
    ∀ (lines : List String) (i : Nat) (s e : Int) (acc : List String),
      (∀ l ∈ lines, jsStartsWith (jsTrim l) "#" = jsStartsWith l "#") →
      (∀ l ∈ lines, isKeyLine l = false) →
      (getRangeLoop lines i true s e acc).lines = acc ++ getLinesLoop lines true := by
  intro lines
  induction lines with
  | nil => intro i s e acc _ _; simp [getRangeLoop, getLinesLoop]
  | cons line rest ih =>
    intro i s e acc hc hk
    have hkey : isKeyLine line = false := hk _ (List.mem_cons_self _ _)
    have hcl : jsStartsWith (jsTrim line) "#" = jsStartsWith line "#" :=
      hc _ (List.mem_cons_self _ _)
    have hc' : ∀ l ∈ rest, jsStartsWith (jsTrim l) "#" = jsStartsWith l "#" :=
      fun l hl => hc l (List.mem_cons_of_mem _ hl)
    have hk' : ∀ l ∈ rest, isKeyLine l = false :=
      fun l hl => hk l (List.mem_cons_of_mem _ hl)
    by_cases hit : isItemLine line = true
    · simp only [getRangeLoop, getLinesLoop, hkey, hit, Bool.not_true, Bool.false_and,
        Bool.false_eq_true, if_false, if_true, ite_true, ite_false]
      rw [ih (i + 1) (if s = -1 then (i : Int) else s) (i : Int) (acc ++ [line]) hc' hk']
      simp
    · have hit' : isItemLine line = false := by
        cases h : isItemLine line
        · rfl
        · exact absurd h hit
      by_cases hterm : (jsTrim line != "" && !(jsStartsWith line "#")) = true
      · have hterm2 : (jsTrim line != "" && !(jsStartsWith (jsTrim line) "#")) = true := by
          rw [hcl]; exact hterm
        simp only [getRangeLoop, getLinesLoop, hkey, hit', hterm, hterm2, Bool.not_true,
          Bool.false_and, Bool.false_eq_true, if_false, if_true, ite_true, ite_false]
        simp
      · have hterm' : (jsTrim line != "" && !(jsStartsWith line "#")) = false := by
          cases h : (jsTrim line != "" && !(jsStartsWith line "#"))
          · rfl
          · exact absurd h hterm
        have hterm2 : (jsTrim line != "" && !(jsStartsWith (jsTrim line) "#")) = false := by
          rw [hcl]; exact hterm'
        simp only [getRangeLoop, getLinesLoop, hkey, hit', hterm', hterm2, Bool.not_true,
          Bool.false_and, Bool.false_eq_true, if_false, if_true, ite_true, ite_false]
        exact ih (i + 1) s e acc hc' hk'

theorem scanAgree_outside :
    ∀ (lines : List String) (i : Nat),
      (∀ l ∈ lines, jsStartsWith (jsTrim l) "#" = jsStartsWith l "#") →
      (lines.filter (fun l => isKeyLine l)).length ≤ 1 →
      (getRangeLoop lines i false (-1) (-1) []).lines = getLinesLoop lines false := by
  intro lines
  induction lines with
  | nil => intro i _ _; simp [getRangeLoop, getLinesLoop]
  | cons line rest ih =>
    intro i hc hk
    have hc' : ∀ l ∈ rest, jsStartsWith (jsTrim l) "#" = jsStartsWith l "#" :=
      fun l hl => hc l (List.mem_cons_of_mem _ hl)
    by_cases hkey : isKeyLine line = true
    · have hrest : ∀ l ∈ rest, isKeyLine l = false := by
        intro l hl
        cases h : isKeyLine l
        · rfl
        · exfalso
          rw [List.filter_cons_of_pos (by simpa using hkey)] at hk
          have h1 : l ∈ rest.filter (fun l => isKeyLine l) :=
            List.mem_filter.mpr ⟨hl, by simpa using h⟩
          have h2 : 0 < (rest.filter (fun l => isKeyLine l)).length :=
            List.length_pos.mpr (fun hnil => by rw [hnil] at h1; cases h1)
          simp only [List.length_cons] at hk
          omega
      simp only [getRangeLoop, getLinesLoop, hkey, Bool.not_false, Bool.true_and,
        if_true, ite_true]
      rw [scanAgree_inside rest (i + 1) (-1) (-1) [] hc' hrest]
      simp
    · have hkey' : isKeyLine line = false := by
        cases h : isKeyLine line
        · rfl
        · exact absurd h hkey
      have hk' : (rest.filter (fun l => isKeyLine l)).length ≤ 1 := by
        rw [List.filter_cons_of_neg (by simpa using hkey')] at hk
        exact hk
      simp only [getRangeLoop, getLinesLoop, hkey', Bool.not_false, Bool.true_and,
        Bool.false_eq_true, if_false, ite_false]
      exact ih (i + 1) hc' hk'

theorem window_stable (pre rest : List String) (sn en : Nat)
    (hsn : sn ≤ en) (hen : en < pre.length) :
    ((pre ++ rest).drop sn).take (en + 1 - sn) = (pre.drop sn).take (en + 1 - sn) := by
  rw [List.drop_append_of_le_length (by omega)]
  rw [List.take_append_of_le_length]
  rw [List.length_drop]
  omega

theorem rangeLoop_delimits_inside :
    ∀ (rest : List String) (i : Nat) (pre : List String) (s e : Int) (acc : List String),
      i = pre.length →
      ((s = -1 ∧ e = -1 ∧ acc = []) ∨
        (∃ sn en : Nat, s = (sn : Int) ∧ e = (en : Int) ∧ sn ≤ en ∧ en < pre.length ∧
          acc ≠ [] ∧
          acc = ((pre.drop sn).take (en + 1 - sn)).filter (fun l => isItemLine l) ∧
          (pre.drop (en + 1)).filter (fun l => isItemLine l) = [])) →
      ((getRangeLoop rest i true s e acc).startIndex = -1 ∧
        (getRangeLoop rest i true s e acc).endIndex = -1 ∧
        (getRangeLoop rest i true s e acc).lines = []) ∨
      (∃ sn en : Nat,
        (getRangeLoop rest i true s e acc).startIndex = (sn : Int) ∧
        (getRangeLoop rest i true s e acc).endIndex = (en : Int) ∧
        sn ≤ en ∧ en < (pre ++ rest).length ∧
        (getRangeLoop rest i true s e acc).lines ≠ [] ∧
        (getRangeLoop rest i true s e acc).lines =
          (((pre ++ rest).drop sn).take (en + 1 - sn)).filter (fun l => isItemLine l)) := by
  intro rest
  induction rest with
  | nil =>
    intro i pre s e acc hi hinv
    rcases hinv with ⟨hs, he, ha⟩ | ⟨sn, en, hs, he, hse, hen, hane, haw, _⟩
    · left; exact ⟨hs, he, ha⟩
    · right
      refine ⟨sn, en, hs, he, hse, ?_, hane, ?_⟩
      · simp only [List.append_nil]
        exact hen
      · show acc = _
        rw [List.append_nil]
        exact haw
  | cons line rest' ih =>
    intro i pre s e acc hi hinv
    subst hi
    by_cases hit : isItemLine line = true
    · have hstep : getRangeLoop (line :: rest') pre.length true s e acc =
          getRangeLoop rest' (pre.length + 1) true
            (if s = -1 then (pre.length : Int) else s) (pre.length : Int)
            (acc ++ [line]) := by
        simp only [getRangeLoop, hit, Bool.not_true, Bool.false_and, Bool.false_eq_true,
          if_false, if_true, ite_true, ite_false]
      rw [hstep, show pre ++ line :: rest' = (pre ++ [line]) ++ rest' by simp]
      apply ih (pre.length + 1) (pre ++ [line]) _ _ _ (by simp)
      right
      rcases hinv with ⟨hs, he, ha⟩ | ⟨sn, en, hs, he, hse, hen, _, haw, htail⟩
      · subst hs; subst ha
        refine ⟨pre.length, pre.length, by rw [if_pos rfl], rfl, le_refl _, by simp, by simp, ?_, ?_⟩
        · rw [List.drop_left]
          have h1 : pre.length + 1 - pre.length = 1 := by omega
          rw [h1]
          simp [hit]
        · have h2 : (pre ++ [line]).length ≤ pre.length + 1 := by simp
          rw [List.drop_eq_nil_of_le h2]
          rfl
      · subst hs
        have hsne : ¬ ((sn : Int) = -1) := by omega
        refine ⟨sn, pre.length, by rw [if_neg hsne], rfl, by omega, by simp, by simp, ?_, ?_⟩
        · have hsnle : sn ≤ pre.length := by omega
          rw [List.drop_append_of_le_length hsnle]
          have hlen1 : (pre.drop sn ++ [line]).length = pre.length - sn + 1 := by
            simp [List.length_drop]
          rw [List.take_of_length_le (by rw [hlen1]; omega)]
          rw [List.filter_append]
          have hfl : [line].filter (fun l => isItemLine l) = [line] := by simp [hit]
          rw [hfl]
          have harith : sn + (en + 1 - sn) = en + 1 := by omega
          have hsplit2 : pre.drop sn =
              ((pre.drop sn).take (en + 1 - sn)) ++ pre.drop (en + 1) := by
            have h0 := List.take_append_drop (en + 1 - sn) (pre.drop sn)
            rw [List.drop_drop, harith] at h0
            exact h0.symm
          rw [hsplit2, List.filter_append, htail, List.append_nil, ← haw]
        · rw [List.drop_eq_nil_of_le (by simp)]
          rfl
    · have hit' : isItemLine line = false := by
        cases h : isItemLine line
        · rfl
        · exact absurd h hit
      by_cases hterm : (jsTrim line != "" && !(jsStartsWith (jsTrim line) "#")) = true
      · have hstep : getRangeLoop (line :: rest') pre.length true s e acc =
            ⟨s, e, acc⟩ := by
          simp only [getRangeLoop, hit', hterm, Bool.not_true, Bool.false_and,
            Bool.false_eq_true, if_false, if_true, ite_true, ite_false]
        rw [hstep]
        rcases hinv with ⟨hs, he, ha⟩ | ⟨sn, en, hs, he, hse, hen, hane, haw, _⟩
        · left; exact ⟨hs, he, ha⟩
        · right
          refine ⟨sn, en, hs, he, hse, ?_, hane, ?_⟩
          · simp only [List.length_append]
            omega
          · show acc = _
            rw [window_stable pre (line :: rest') sn en hse hen]
            exact haw
      · have hterm' : (jsTrim line != "" && !(jsStartsWith (jsTrim line) "#")) = false := by
          cases h : (jsTrim line != "" && !(jsStartsWith (jsTrim line) "#"))
          · rfl
          · exact absurd h hterm
        have hstep : getRangeLoop (line :: rest') pre.length true s e acc =
            getRangeLoop rest' (pre.length + 1) true s e acc := by
          simp only [getRangeLoop, hit', hterm', Bool.not_true, Bool.false_and,
            Bool.false_eq_true, if_false, if_true, ite_true, ite_false]
        rw [hstep, show pre ++ line :: rest' = (pre ++ [line]) ++ rest' by simp]
        apply ih (pre.length + 1) (pre ++ [line]) _ _ _ (by simp)
        rcases hinv with ⟨hs, he, ha⟩ | ⟨sn, en, hs, he, hse, hen, hane, haw, htail⟩
        · left; exact ⟨hs, he, ha⟩
        · right
          refine ⟨sn, en, hs, he, hse, by simp; omega, hane, ?_, ?_⟩
          · rw [window_stable pre [line] sn en hse hen]
            exact haw
          · rw [List.drop_append_of_le_length (by omega)]
            rw [List.filter_append, htail]
            simp [hit']

theorem rangeLoop_delimits_outside :
    ∀ (rest : List String) (i : Nat) (pre : List String), i = pre.length →
      ((getRangeLoop rest i false (-1) (-1) []).startIndex = -1 ∧
        (getRangeLoop rest i false (-1) (-1) []).endIndex = -1 ∧
        (getRangeLoop rest i false (-1) (-1) []).lines = []) ∨
      (∃ sn en : Nat,
        (getRangeLoop rest i false (-1) (-1) []).startIndex = (sn : Int) ∧
        (getRangeLoop rest i false (-1) (-1) []).endIndex = (en : Int) ∧
        sn ≤ en ∧ en < (pre ++ rest).length ∧
        (getRangeLoop rest i false (-1) (-1) []).lines ≠ [] ∧
        (getRangeLoop rest i false (-1) (-1) []).lines =
          (((pre ++ rest).drop sn).take (en + 1 - sn)).filter (fun l => isItemLine l)) := by
  intro rest
  induction rest with
  | nil =>
    intro i pre _
    left
    exact ⟨rfl, rfl, rfl⟩
  | cons line rest' ih =>
    intro i pre hi
    subst hi
    by_cases hkey : isKeyLine line = true
    · have hstep : getRangeLoop (line :: rest') pre.length false (-1) (-1) [] =
          getRangeLoop rest' (pre.length + 1) true (-1) (-1) [] := by
        simp only [getRangeLoop, hkey, Bool.not_false, Bool.true_and, if_true, ite_true]
      rw [hstep, show pre ++ line :: rest' = (pre ++ [line]) ++ rest' by simp]
      exact rangeLoop_delimits_inside rest' (pre.length + 1) (pre ++ [line]) (-1) (-1) []
        (by simp) (Or.inl ⟨rfl, rfl, rfl⟩)
    · have hkey' : isKeyLine line = false := by
        cases h : isKeyLine line
        · rfl
        · exact absurd h hkey
      have hstep : getRangeLoop (line :: rest') pre.length false (-1) (-1) [] =
          getRangeLoop rest' (pre.length + 1) false (-1) (-1) [] := by
        simp only [getRangeLoop, hkey', Bool.not_false, Bool.true_and, Bool.false_eq_true,
          if_false, ite_true, ite_false]
      rw [hstep, show pre ++ line :: rest' = (pre ++ [line]) ++ rest' by simp]
      exact ih (pre.length + 1) (pre ++ [line]) (by simp)

/-- C8 counterexample: the two scans are not identical.  On an input with an
indented comment line inside the block, `getDoNotCompressLines` stops (its
comment test looks at the untrimmed line) while `getDoNotCompressRange` skips
it; on an input with a repeated key line, `getDoNotCompressLines` re-consumes
the key and continues while `getDoNotCompressRange` treats it as a
terminator.  In both cases the two scans return different item-line lists. -/
theorem scanners_differ :
    getDoNotCompressLines ["doNotCompress:", "  # c", "- b"] ≠
      (getDoNotCompressRange ["doNotCompress:", "  # c", "- b"]).lines ∧
    getDoNotCompressLines ["doNotCompress:", "- a", "doNotCompress:", "- b"] ≠
      (getDoNotCompressRange ["doNotCompress:", "- a", "doNotCompress:", "- b"]).lines := by
  constructor <;> decide

/-- C8 (amended): on every input in which the comment test does not depend
on trimming (each line's trimmed form starts with the comment marker exactly
when its untrimmed form does) and at most one line is a key line, the two
scans return exactly the same list of item lines; and on every input
whatsoever, the range scan's recorded start and end indices delimit
precisely its extracted item lines — when the list is nonempty, both indices
are in range, the start is not past the end, and the extracted list is
exactly the item lines among positions start through end — or both indices
report not-found (`-1`) and the list is empty. -/
theorem scanners_agree_and_delimit (lines : List String) :
    ((∀ l ∈ lines, jsStartsWith (jsTrim l) "#" = jsStartsWith l "#") →
      (lines.filter (fun l => isKeyLine l)).length ≤ 1 →
      getDoNotCompressLines lines = (getDoNotCompressRange lines).lines) ∧
    (((getDoNotCompressRange lines).startIndex = -1 ∧
      (getDoNotCompressRange lines).endIndex = -1 ∧
      (getDoNotCompressRange lines).lines = []) ∨
     (∃ sn en : Nat,
       (getDoNotCompressRange lines).startIndex = (sn : Int) ∧
       (getDoNotCompressRange lines).endIndex = (en : Int) ∧
       sn ≤ en ∧ en < lines.length ∧
       (getDoNotCompressRange lines).lines ≠ [] ∧
       (getDoNotCompressRange lines).lines =
         ((lines.drop sn).take (en + 1 - sn)).filter (fun l => isItemLine l))) := by
  constructor
  · intro hc hk
    exact (scanAgree_outside lines 0 hc hk).symm
  · have h := rangeLoop_delimits_outside lines 0 [] rfl
    simpa [getDoNotCompressRange] using h

/-- C8 witness for the amended theorem: the agreement half at a benign input
with a blank line inside the block and a trailing item after the terminator,
and the delimitation half at an input with a repeated key line (which the
agreement hypotheses exclude). -/
theorem scanners_agree_and_delimit_witness :
    (getDoNotCompressLines
        ["version: 1", "doNotCompress:", "- a", "", "- b", "next: x", "- c"] =
      (getDoNotCompressRange
        ["version: 1", "doNotCompress:", "- a", "", "- b", "next: x", "- c"]).lines) ∧
    (((getDoNotCompressRange
        ["doNotCompress:", "- a", "doNotCompress:", "- b"]).startIndex = -1 ∧
      (getDoNotCompressRange
        ["doNotCompress:", "- a", "doNotCompress:", "- b"]).endIndex = -1 ∧
      (getDoNotCompressRange
        ["doNotCompress:", "- a", "doNotCompress:", "- b"]).lines = []) ∨
     (∃ sn en : Nat,
       (getDoNotCompressRange
         ["doNotCompress:", "- a", "doNotCompress:", "- b"]).startIndex = (sn : Int) ∧
       (getDoNotCompressRange
         ["doNotCompress:", "- a", "doNotCompress:", "- b"]).endIndex = (en : Int) ∧
       sn ≤ en ∧ en < (["doNotCompress:", "- a", "doNotCompress:", "- b"]).length ∧
       (getDoNotCompressRange
         ["doNotCompress:", "- a", "doNotCompress:", "- b"]).lines ≠ [] ∧
       (getDoNotCompressRange
         ["doNotCompress:", "- a", "doNotCompress:", "- b"]).lines =
         (((["doNotCompress:", "- a", "doNotCompress:", "- b"]).drop sn).take
           (en + 1 - sn)).filter (fun l => isItemLine l))) :=
  ⟨(scanners_agree_and_delimit
      ["version: 1", "doNotCompress:", "- a", "", "- b", "next: x", "- c"]).1
    (by decide) (by decide),
   (scanners_agree_and_delimit
      ["doNotCompress:", "- a", "doNotCompress:", "- b"]).2⟩
